import Mathlib

/-!
Verification of the SQL statement splitter `parse_sql_statements` from
`jenkins/deployment/deploy_tables.py` (class `TableDeployer`), together
with the naive one-line splitter used in `jenkins/deployment/deploy_schemas.py`.

Strings are modelled as `List Char`.  Python's regular-expression based
comment removal is embedded by structural scanning functions whose
semantics match the two `re.sub` calls exactly (see the doc comments),
and the line loop is embedded as a fold over the '\n'-split lines with
the state record `SplitState` mirroring the four local variables of the
Python function.
-/

namespace RetailWorks

/-- The set of characters stripped by Python's `str.strip()` (ASCII whitespace:
space, tab, newline, carriage return, vertical tab, form feed). -/
def isPySpace (c : Char) : Bool :=
  c = ' ' || c = '\t' || c = '\n' || c = '\r' || c = Char.ofNat 11 || c = Char.ofNat 12

/-- Remove leading Python whitespace (left part of `str.strip()`). -/
def trimStart (l : List Char) : List Char :=
  l.dropWhile isPySpace

/-- Remove trailing Python whitespace (right part of `str.strip()`). -/
def trimEnd (l : List Char) : List Char :=
  (l.reverse.dropWhile isPySpace).reverse

/-- Python's `str.strip()`: drop whitespace from both ends. -/
def strip (l : List Char) : List Char :=
  trimStart (trimEnd l)

/-- Python's `str.upper()` on ASCII text: upper-case every character. -/
def upperL (l : List Char) : List Char :=
  l.map Char.toUpper

/-- Python's substring test `pat in l`. -/
def containsSub : List Char → List Char → Bool
  | [], pat => pat.isEmpty
  | c :: t, pat => pat.isPrefixOf (c :: t) || containsSub t pat

/-- Helper for `splitOnChar`: prepend a character to the first piece. -/
def consHead (x : Char) : List (List Char) → List (List Char)
  | [] => [[x]]
  | p :: ps => (x :: p) :: ps

/-- Python's `str.split(c)` for a one-character separator: the pieces between
occurrences of `c`.  Like Python, the empty string yields `[[]]` (one empty
piece) and a separator at the end yields a trailing empty piece. -/
def splitOnChar (c : Char) : List Char → List (List Char)
  | [] => [[]]
  | x :: xs => if x = c then [] :: splitOnChar c xs else consHead x (splitOnChar c xs)

/-- Join pieces with a newline between consecutive pieces
(inverse of splitting on '\n'). -/
def joinNL : List (List Char) → List Char
  | [] => []
  | [x] => x
  | x :: xs => x ++ '\n' :: joinNL xs

/-- Apply `f` to every element except the last one. -/
def mapInit (f : List Char → List Char) : List (List Char) → List (List Char)
  | [] => []
  | [x] => [x]
  | x :: xs => f x :: mapInit f xs

/-- Truncate a single line at its first `--`: the replacement text of one
match of the regex `--.*?\n` is `\n`, i.e. everything from `--` to the end
of the line is deleted while the newline is kept. -/
def truncLineComment : List Char → List Char
  | [] => []
  | c :: rest => if c = '-' && rest.head? = some '-' then [] else c :: truncLineComment rest

/-- Embedding of `re.sub(r'--.*?\n', '\n', sql_content)`: since `.` does not
match `\n`, every match runs from a `--` to the first following newline, so
the substitution truncates each newline-terminated line at its first `--`
and leaves the final (unterminated) segment untouched. -/
def removeLineComments (l : List Char) : List Char :=
  joinNL (mapInit truncLineComment (splitOnChar '\n' l))

/-- Find the first occurrence of `*/` and return the suffix after it
(`none` when there is no `*/`). -/
def findStarSlash : List Char → Option (List Char)
  | [] => none
  | c :: rest =>
    if c = '*' && rest.head? = some '/' then some rest.tail
    else findStarSlash rest

theorem findStarSlash_length :
    ∀ (l b : List Char), findStarSlash l = some b → b.length < l.length := by
  intro l
  induction l with
  | nil => intro b h; simp [findStarSlash] at h
  | cons c rest ih =>
    intro b h
    simp only [findStarSlash] at h
    by_cases hc : (c = '*' && rest.head? = some '/') = true
    · rw [if_pos hc] at h
      cases h
      cases rest with
      | nil => simp at hc
      | cons d r2 => simp [List.tail]; omega
    · rw [if_neg hc] at h
      have := ih b h
      simp; omega

/-- Fuel-indexed worker for `removeBlockComments`; every recursive call
consumes at least one character of the list, so fuel `l.length + 1` is
always sufficient and the fuel-exhausted branch is unreachable. -/
def rbcFuel : Nat → List Char → List Char
  | 0, l => l
  | _ + 1, [] => []
  | fuel + 1, c :: rest =>
    if c = '/' && rest.head? = some '*' then
      match findStarSlash rest.tail with
      | some b => rbcFuel fuel b
      | none => c :: rest
    else c :: rbcFuel fuel rest

/-- Embedding of `re.sub(r'/\*.*?\*/', '', sql_content, flags=re.DOTALL)`:
scan for `/*`; when a matching `*/` follows, delete through it and continue
scanning after the match; when no `*/` follows, no match can start at or
after this position, so the remainder is kept verbatim (an unterminated
block comment is not removed). -/
def removeBlockComments (l : List Char) : List Char :=
  rbcFuel (l.length + 1) l

theorem rbcFuel_congr :
    ∀ (f1 f2 : Nat) (l : List Char), l.length < f1 → l.length < f2 →
      rbcFuel f1 l = rbcFuel f2 l := by
  intro f1
  induction f1 with
  | zero => intro f2 l h1; omega
  | succ f1 ih =>
    intro f2 l h1 h2
    cases f2 with
    | zero => omega
    | succ f2 =>
      cases l with
      | nil => rfl
      | cons c rest =>
        simp only [rbcFuel]
        by_cases hc : (c = '/' && rest.head? = some '*') = true
        · rw [if_pos hc, if_pos hc]
          cases hfs : findStarSlash rest.tail with
          | none => rfl
          | some b =>
            have hb := findStarSlash_length _ _ hfs
            have ht : rest.tail.length ≤ rest.length := by
              cases rest <;> simp
            simp only [List.length_cons] at h1 h2
            exact ih f2 b (by omega) (by omega)
        · rw [if_neg hc, if_neg hc]
          simp only [List.length_cons] at h1 h2
          rw [ih f2 rest (by omega) (by omega)]

theorem removeBlockComments_nil : removeBlockComments [] = [] := rfl

/-- One-step unfolding of `removeBlockComments`. -/
theorem removeBlockComments_cons (c : Char) (rest : List Char) :
    removeBlockComments (c :: rest) =
      if c = '/' && rest.head? = some '*' then
        match findStarSlash rest.tail with
        | some b => removeBlockComments b
        | none => c :: rest
      else c :: removeBlockComments rest := by
  unfold removeBlockComments
  simp only [List.length_cons, rbcFuel]
  by_cases hc : (c = '/' && rest.head? = some '*') = true
  · rw [if_pos hc, if_pos hc]
    cases hfs : findStarSlash rest.tail with
    | none => rfl
    | some b =>
      have hb := findStarSlash_length _ _ hfs
      have ht : rest.tail.length ≤ rest.length := by
        cases rest <;> simp
      exact rbcFuel_congr _ _ b (by omega) (by omega)
  · rw [if_neg hc, if_neg hc]

/-- The comment-removal preprocessing of `parse_sql_statements`:
line comments first, then block comments. -/
def removeComments (l : List Char) : List Char :=
  removeBlockComments (removeLineComments l)

/-- The procedure-start marker `'CREATE OR REPLACE PROCEDURE'`. -/
def markerL : List Char :=
  "CREATE OR REPLACE PROCEDURE".toList

/-- The procedure-end token `'$$;'`. -/
def dollarEnd : List Char :=
  "$$;".toList

/-- The local state of the line loop of `parse_sql_statements`:
`statements`, `current_statement`, `in_string` and `in_procedure`. -/
structure SplitState where
  statements : List (List Char)
  current : List Char
  in_string : Bool
  in_procedure : Bool
deriving DecidableEq, Repr

/-- One iteration of the `for line in lines` loop of `parse_sql_statements`. -/
def processLine (st : SplitState) (line : List Char) : SplitState :=
  let stripped_line := strip line
  let in_procedure1 :=
    if containsSub (upperL stripped_line) markerL then true
    else if st.in_procedure && dollarEnd.isSuffixOf stripped_line then false
    else st.in_procedure
  let current1 := st.current ++ line ++ ['\n']
  if line.contains ';' && !in_procedure1 && !st.in_string then
    let parts := splitOnChar ';' current1
    if parts.length > 1 then
      { statements :=
          st.statements ++ ((parts.dropLast.map strip).filter (fun p => !p.isEmpty))
        current := parts.getLastD []
        in_string := st.in_string
        in_procedure := in_procedure1 }
    else
      { statements := st.statements, current := current1
        in_string := st.in_string, in_procedure := in_procedure1 }
  else
    { statements := st.statements, current := current1
      in_string := st.in_string, in_procedure := in_procedure1 }

/-- `TableDeployer.parse_sql_statements` from `deploy_tables.py`:
remove comments, scan line by line accumulating a current statement,
split it on semicolons outside procedure mode, and append the stripped
remaining buffer at the end when non-empty. -/
def parse_sql_statements (sql_content : List Char) : List (List Char) :=
  let content1 := removeComments sql_content
  let lines := splitOnChar '\n' content1
  let final := lines.foldl processLine ⟨[], [], false, false⟩
  final.statements ++ (if (strip final.current).isEmpty then [] else [strip final.current])

/-- The naive one-line splitter of `deploy_schemas.py`
(`[stmt.strip() for stmt in sql_content.split(';') if stmt.strip()]`),
preceded by the same comment removal as `parse_sql_statements`. -/
def refSplit (sql_content : List Char) : List (List Char) :=
  ((splitOnChar ';' (removeComments sql_content)).filter
      (fun p => !(strip p).isEmpty)).map strip

/-- Join statements back into one text, each statement followed by `;`. -/
def joinSemi : List (List Char) → List Char
  | [] => []
  | o :: os => o ++ ';' :: joinSemi os

/-! ### Basic lemmas about `splitOnChar` -/

theorem consHead_cons (x : Char) (p : List Char) (ps : List (List Char)) :
    consHead x (p :: ps) = (x :: p) :: ps := rfl

theorem splitOnChar_ne_nil (c : Char) (l : List Char) : splitOnChar c l ≠ [] := by
  induction l with
  | nil => simp [splitOnChar]
  | cons x xs ih =>
    simp only [splitOnChar]
    split
    · simp
    · cases h : splitOnChar c xs with
      | nil => exact absurd h ih
      | cons p ps => simp [consHead_cons]

theorem splitOnChar_shape (c : Char) (l : List Char) :
    ∃ q qs, splitOnChar c l = q :: qs := by
  cases h : splitOnChar c l with
  | nil => exact absurd h (splitOnChar_ne_nil c l)
  | cons q qs => exact ⟨q, qs, rfl⟩

theorem not_mem_splitOnChar (c : Char) (l : List Char) :
    ∀ p ∈ splitOnChar c l, c ∉ p := by
  induction l with
  | nil =>
    intro p hp
    simp [splitOnChar] at hp
    simp [hp]
  | cons x xs ih =>
    intro p hp
    simp only [splitOnChar] at hp
    by_cases hx : x = c
    · rw [if_pos hx] at hp
      rcases List.mem_cons.mp hp with h | h
      · simp [h]
      · exact ih p h
    · rw [if_neg hx] at hp
      obtain ⟨q, qs, hq⟩ := splitOnChar_shape c xs
      rw [hq, consHead_cons] at hp
      rcases List.mem_cons.mp hp with h | h
      · subst h
        intro hc
        rcases List.mem_cons.mp hc with h | h
        · exact hx h.symm
        · exact ih q (hq ▸ List.mem_cons_self q qs) h
      · exact ih p (hq ▸ List.mem_cons_of_mem q h)

theorem splitOnChar_of_not_mem {c : Char} {l : List Char} (h : c ∉ l) :
    splitOnChar c l = [l] := by
  induction l with
  | nil => rfl
  | cons x xs ih =>
    have hx : x ≠ c := fun he => h (he ▸ List.mem_cons_self x xs)
    have hxs : c ∉ xs := fun hm => h (List.mem_cons_of_mem x hm)
    simp only [splitOnChar, if_neg hx, ih hxs, consHead_cons]

theorem one_lt_length_splitOnChar {c : Char} {l : List Char} (h : c ∈ l) :
    1 < (splitOnChar c l).length := by
  induction l with
  | nil => simp at h
  | cons x xs ih =>
    simp only [splitOnChar]
    by_cases hx : x = c
    · rw [if_pos hx]
      obtain ⟨q, qs, hq⟩ := splitOnChar_shape c xs
      rw [hq]
      simp
    · rw [if_neg hx]
      have hmem : c ∈ xs := by
        rcases List.mem_cons.mp h with h1 | h1
        · exact absurd h1.symm hx
        · exact h1
      obtain ⟨q, qs, hq⟩ := splitOnChar_shape c xs
      have h2 := ih hmem
      rw [hq] at h2 ⊢
      rw [consHead_cons]
      simpa using h2

theorem join_map_splitOnChar (c : Char) (l : List Char) :
    ((splitOnChar c l).map (fun p => p ++ [c])).join = l ++ [c] := by
  induction l with
  | nil => rfl
  | cons x xs ih =>
    simp only [splitOnChar]
    by_cases hx : x = c
    · subst hx
      rw [if_pos rfl]
      simpa using ih
    · rw [if_neg hx]
      obtain ⟨q, qs, hq⟩ := splitOnChar_shape c xs
      rw [hq] at ih ⊢
      rw [consHead_cons]
      simp only [List.map_cons, List.join_cons] at ih ⊢
      simp [← List.append_assoc] at ih ⊢
      exact ih

/-- Prepend a chunk to the first piece of a piece list. -/
def glueHead (x : List Char) : List (List Char) → List (List Char)
  | [] => [x]
  | p :: ps => (x ++ p) :: ps

theorem splitOnChar_append (c : Char) (a b : List Char) :
    splitOnChar c (a ++ b) =
      (splitOnChar c a).dropLast ++
        glueHead ((splitOnChar c a).getLastD []) (splitOnChar c b) := by
  induction a with
  | nil =>
    obtain ⟨r, rs, hr⟩ := splitOnChar_shape c b
    simp [splitOnChar, hr, glueHead]
  | cons x xs ih =>
    simp only [List.cons_append, splitOnChar, List.append_eq]
    by_cases hx : x = c
    · rw [if_pos hx, if_pos hx, ih]
      obtain ⟨q, qs, hq⟩ := splitOnChar_shape c xs
      rw [hq]
      cases qs with
      | nil => simp [glueHead]
      | cons q2 qs2 => simp
    · rw [if_neg hx, if_neg hx, ih]
      obtain ⟨q, qs, hq⟩ := splitOnChar_shape c xs
      rw [hq, consHead_cons]
      cases qs with
      | nil =>
        obtain ⟨r, rs, hr⟩ := splitOnChar_shape c b
        simp [hr, glueHead, consHead_cons]
      | cons q2 qs2 =>
        simp [consHead_cons]

/-! ### Lemmas about `strip` -/

theorem dropWhile_idem (p : Char → Bool) (l : List Char) :
    (l.dropWhile p).dropWhile p = l.dropWhile p := by
  cases h : l.dropWhile p with
  | nil => simp
  | cons x t =>
    have hx := List.head?_dropWhile_not p l
    rw [h] at hx
    simp only [List.head?_cons] at hx
    rw [List.dropWhile_cons_of_neg]
    simp [hx]

theorem trimStart_idem (l : List Char) : trimStart (trimStart l) = trimStart l :=
  dropWhile_idem isPySpace l

theorem trimEnd_eq_self {l : List Char}
    (h : ∀ x, l.getLast? = some x → isPySpace x = false) : trimEnd l = l := by
  unfold trimEnd
  cases hr : l.reverse with
  | nil =>
    have : l = [] := by simpa using congrArg List.reverse hr
    simp [this]
  | cons y t =>
    have hy : l.getLast? = some y := by
      rw [← List.head?_reverse, hr, List.head?_cons]
    rw [List.dropWhile_cons_of_neg (by simp [h y hy]), ← hr, List.reverse_reverse]

theorem getLast?_trimEnd_not (l : List Char) :
    ∀ x, (trimEnd l).getLast? = some x → isPySpace x = false := by
  intro x hx
  unfold trimEnd at hx
  rw [← List.head?_reverse, List.reverse_reverse] at hx
  have := List.head?_dropWhile_not isPySpace l.reverse
  rw [hx] at this
  exact this

theorem trimEnd_idem (l : List Char) : trimEnd (trimEnd l) = trimEnd l :=
  trimEnd_eq_self (getLast?_trimEnd_not l)

theorem trimStart_suffix (l : List Char) : trimStart l <:+ l :=
  List.dropWhile_suffix isPySpace

theorem getLast?_suffix_eq {s l : List Char} (h : s <:+ l) (hs : s ≠ []) :
    s.getLast? = l.getLast? := by
  obtain ⟨u, hu⟩ := h
  rw [← hu, List.getLast?_append]
  cases hsl : s.getLast? with
  | none => exact absurd (List.getLast?_eq_none_iff.mp hsl) hs
  | some y => simp

theorem strip_idem (l : List Char) : strip (strip l) = strip l := by
  unfold strip
  have hA : trimEnd (trimStart (trimEnd l)) = trimStart (trimEnd l) := by
    apply trimEnd_eq_self
    intro x hx
    by_cases hn : trimStart (trimEnd l) = []
    · rw [hn] at hx; simp at hx
    · have := getLast?_suffix_eq (trimStart_suffix (trimEnd l)) hn
      exact getLast?_trimEnd_not l x (this ▸ hx)
  rw [hA, trimStart_idem]

theorem trimEnd_append_ws {d : Char} (hd : isPySpace d = true) (l : List Char) :
    trimEnd (l ++ [d]) = trimEnd l := by
  unfold trimEnd
  rw [List.reverse_append]
  simp [List.dropWhile_cons_of_pos hd]

theorem strip_append_ws {d : Char} (hd : isPySpace d = true) (l : List Char) :
    strip (l ++ [d]) = strip l := by
  unfold strip
  rw [trimEnd_append_ws hd]

theorem trimEnd_prefix_self (l : List Char) : trimEnd l <+: l := by
  unfold trimEnd
  rw [← List.reverse_suffix]
  simpa using List.dropWhile_suffix isPySpace

theorem strip_infix_self (l : List Char) : strip l <:+: l :=
  (trimStart_suffix (trimEnd l)).isInfix.trans (trimEnd_prefix_self l).isInfix

theorem mem_strip {x : Char} {l : List Char} (h : x ∈ strip l) : x ∈ l :=
  (strip_infix_self l).subset h

/-! ### Reflection of the substring test -/

theorem containsSub_iff {l pat : List Char} : containsSub l pat = true ↔ pat <:+: l := by
  induction l with
  | nil =>
    simp [containsSub, List.isEmpty_iff]
  | cons x t ih =>
    simp [containsSub, List.isPrefixOf_iff_prefix, ih, List.infix_cons_iff]

/-! ### Characterisation of the line loop when no procedure marker appears -/

/-- The text the line loop effectively processes: every line with a newline
re-appended (the loop always executes `current_statement += line + '\n'`). -/
def textNL (ls : List (List Char)) : List Char :=
  (ls.map (fun l2 => l2 ++ ['\n'])).flatten

/-- Strip all pieces, keep the non-empty ones (shared shape of the emission
step of `parse_sql_statements` and of the `deploy_schemas.py` one-liner). -/
def filterStrip (ps : List (List Char)) : List (List Char) :=
  (ps.map strip).filter (fun p => !p.isEmpty)

theorem filterStrip_append (a b : List (List Char)) :
    filterStrip (a ++ b) = filterStrip a ++ filterStrip b := by
  unfold filterStrip
  rw [List.map_append, List.filter_append]

theorem getLastD_mem {ps : List (List Char)} (h : ps ≠ []) : ps.getLastD [] ∈ ps := by
  cases ps with
  | nil => exact absurd rfl h
  | cons q qs =>
    rw [List.getLastD_cons]
    exact List.getLastD_mem_cons qs q

theorem getLastD_append_ne_nil {a b : List (List Char)} (h : b ≠ []) :
    (a ++ b).getLastD [] = b.getLastD [] := by
  simp only [List.getLastD_eq_getLast?, List.getLast?_append]
  cases hb : b.getLast? with
  | none => exact absurd (List.getLast?_eq_none_iff.mp hb) h
  | some y => simp

theorem textNL_cons (l : List Char) (ls : List (List Char)) :
    textNL (l :: ls) = (l ++ ['\n']) ++ textNL ls := by
  simp [textNL]

theorem textNL_splitNL (l : List Char) :
    textNL (splitOnChar '\n' l) = l ++ ['\n'] := by
  unfold textNL
  exact join_map_splitOnChar '\n' l

/-- The glued shape `glueHead x B` is never empty when `B` is not. -/
theorem glueHead_ne_nil (x : List Char) (B : List (List Char)) :
    glueHead x B ≠ [] := by
  cases B <;> simp [glueHead]

/-- Running the loop over marker-free lines from a semicolon-free buffer:
the statements collected are the stripped non-empty pieces between the
semicolons of `cur ++ textNL lines` except the last, the final buffer is
the last piece, and the loop never enters procedure mode. -/
theorem foldl_processLine_no_marker (lines : List (List Char)) :
    ∀ (stmts : List (List Char)) (cur : List Char),
      (∀ l ∈ lines, containsSub (upperL (strip l)) markerL = false) →
      (';' : Char) ∉ cur →
      lines.foldl processLine ⟨stmts, cur, false, false⟩ =
        ⟨stmts ++ filterStrip (splitOnChar ';' (cur ++ textNL lines)).dropLast,
         (splitOnChar ';' (cur ++ textNL lines)).getLastD [], false, false⟩ := by
  induction lines with
  | nil =>
    intro stmts cur _ hcur
    rw [List.foldl_nil]
    have h1 : splitOnChar ';' (cur ++ textNL []) = [cur] := by
      simp only [textNL, List.map_nil, List.flatten_nil, List.append_nil]
      exact splitOnChar_of_not_mem hcur
    rw [h1]
    simp [filterStrip]
  | cons line rest ih =>
    intro stmts cur hm hcur
    have hmline : containsSub (upperL (strip line)) markerL = false :=
      hm line (List.mem_cons_self line rest)
    have hmrest : ∀ l ∈ rest, containsSub (upperL (strip l)) markerL = false :=
      fun l hl => hm l (List.mem_cons_of_mem line hl)
    rw [List.foldl_cons]
    have hproc :
        processLine ⟨stmts, cur, false, false⟩ line =
          if line.contains ';' then
            { statements := stmts ++
                filterStrip (splitOnChar ';' (cur ++ line ++ ['\n'])).dropLast
              current := (splitOnChar ';' (cur ++ line ++ ['\n'])).getLastD []
              in_string := false
              in_procedure := false }
          else
            { statements := stmts, current := cur ++ line ++ ['\n']
              in_string := false, in_procedure := false } := by
      unfold processLine
      simp only [hmline, Bool.false_eq_true, if_false, Bool.false_and, Bool.not_false,
        Bool.and_true]
      by_cases hsemi : line.contains ';'
      · simp only [hsemi, Bool.true_and, if_true, if_pos]
        have hmem : (';' : Char) ∈ cur ++ line ++ ['\n'] := by
          have : (';' : Char) ∈ line := by
            have := List.elem_iff.mp hsemi
            exact this
          simp [this]
        have hlen := one_lt_length_splitOnChar hmem
        rw [if_pos (by omega)]
        rfl
      · have hnm : (';' : Char) ∉ line := by simpa using hsemi
        simp [hnm]
    rw [hproc]
    by_cases hsemi : line.contains ';'
    · rw [if_pos hsemi]
      have hmemline : (';' : Char) ∈ line := List.elem_iff.mp hsemi
      set parts := splitOnChar ';' (cur ++ line ++ ['\n']) with hparts
      have hpartsne : parts ≠ [] := splitOnChar_ne_nil _ _
      have hcur' : (';' : Char) ∉ parts.getLastD [] :=
        not_mem_splitOnChar ';' (cur ++ line ++ ['\n']) _ (getLastD_mem hpartsne)
      rw [ih _ _ hmrest hcur']
      -- relate the two splittings
      obtain ⟨r, rs, hr⟩ := splitOnChar_shape ';' (textNL rest)
      have hQ : splitOnChar ';' (parts.getLastD [] ++ textNL rest) =
          glueHead (parts.getLastD []) (splitOnChar ';' (textNL rest)) := by
        rw [splitOnChar_append, splitOnChar_of_not_mem hcur']
        simp
      have hP : splitOnChar ';' (cur ++ textNL (line :: rest)) =
          parts.dropLast ++ glueHead (parts.getLastD []) (splitOnChar ';' (textNL rest)) := by
        rw [textNL_cons, show cur ++ ((line ++ ['\n']) ++ textNL rest) =
              (cur ++ line ++ ['\n']) ++ textNL rest by simp,
            splitOnChar_append, hparts]
      have hgne : glueHead (parts.getLastD []) (splitOnChar ';' (textNL rest)) ≠ [] :=
        glueHead_ne_nil _ _
      rw [hQ, hP]
      congr 1
      · rw [List.dropLast_append_of_ne_nil _ hgne, filterStrip_append, List.append_assoc]
      · rw [getLastD_append_ne_nil hgne]
    · rw [if_neg hsemi]
      have hmemline : (';' : Char) ∉ line := fun hmem =>
        hsemi (List.elem_iff.mpr hmem)
      have hcur' : (';' : Char) ∉ cur ++ line ++ ['\n'] := by
        simp [hcur, hmemline]
      rw [ih _ _ hmrest hcur']
      rw [textNL_cons, show cur ++ ((line ++ ['\n']) ++ textNL rest) =
            (cur ++ line ++ ['\n']) ++ textNL rest by simp]

/-- When no line of the comment-stripped input contains the procedure marker,
`parse_sql_statements` returns exactly the stripped non-empty pieces between
the semicolons of the comment-stripped text (with a final newline appended,
which stripping cancels). -/
theorem parse_eq_filterStrip_of_no_marker {s : List Char}
    (hm : ∀ l ∈ splitOnChar '\n' (removeComments s),
            containsSub (upperL (strip l)) markerL = false) :
    parse_sql_statements s =
      filterStrip (splitOnChar ';' (removeComments s ++ ['\n'])) := by
  simp only [parse_sql_statements]
  rw [foldl_processLine_no_marker _ _ _ hm (by simp)]
  simp only [List.nil_append, textNL_splitNL]
  set P := splitOnChar ';' (removeComments s ++ ['\n']) with hP
  have hne : P ≠ [] := splitOnChar_ne_nil _ _
  have hsplit : P = P.dropLast ++ [P.getLastD []] := by
    conv_lhs => rw [← List.dropLast_concat_getLast hne]
    rw [List.getLastD_eq_getLast?, List.getLast?_eq_getLast _ hne]
    simp
  have hlast : filterStrip [P.getLastD []] =
      if (strip (P.getLastD [])).isEmpty then [] else [strip (P.getLastD [])] := by
    unfold filterStrip
    cases he : (strip (P.getLastD [])).isEmpty
    · simp [List.filter_cons, he]
      rw [← List.getLastD_eq_getLast?]
      simpa using he
    · simp [List.filter_cons, he]
      rw [← List.getLastD_eq_getLast?]
      simpa using he
  rw [← hlast, ← filterStrip_append, ← hsplit]

/-! ### Relation to the naive splitter of `deploy_schemas.py` -/

theorem isPySpace_newline : isPySpace '\n' = true := rfl

/-- Appending a final newline to the text does not change the stripped
non-empty pieces of the semicolon split. -/
theorem filterStrip_split_snoc_newline (T : List Char) :
    filterStrip (splitOnChar ';' (T ++ ['\n'])) = filterStrip (splitOnChar ';' T) := by
  have h1 : splitOnChar ';' (T ++ ['\n']) =
      (splitOnChar ';' T).dropLast ++ [(splitOnChar ';' T).getLastD [] ++ ['\n']] := by
    rw [splitOnChar_append]
    rfl
  have hne : splitOnChar ';' T ≠ [] := splitOnChar_ne_nil _ _
  have h2 : splitOnChar ';' T =
      (splitOnChar ';' T).dropLast ++ [(splitOnChar ';' T).getLastD []] := by
    conv_lhs => rw [← List.dropLast_concat_getLast hne]
    rw [List.getLastD_eq_getLast?, List.getLast?_eq_getLast _ hne]
    simp
  rw [h1]
  conv_rhs => rw [h2]
  rw [filterStrip_append, filterStrip_append]
  congr 1
  unfold filterStrip
  rw [List.map_cons, List.map_nil, strip_append_ws isPySpace_newline]
  rfl

theorem refSplit_eq_filterStrip (s : List Char) :
    refSplit s = filterStrip (splitOnChar ';' (removeComments s)) := by
  unfold refSplit filterStrip
  rw [List.filter_map]
  rfl

/-- Under the no-marker hypothesis, `parse_sql_statements` agrees with the
naive comment-removal-then-split of `deploy_schemas.py`. -/
theorem parse_eq_refSplit_of_no_marker {s : List Char}
    (hm : ∀ l ∈ splitOnChar '\n' (removeComments s),
            containsSub (upperL (strip l)) markerL = false) :
    parse_sql_statements s = refSplit s := by
  rw [parse_eq_filterStrip_of_no_marker hm, refSplit_eq_filterStrip,
    filterStrip_split_snoc_newline]

/-- Every piece produced by `filterStrip` of a semicolon split is free of
semicolons. -/
theorem no_semicolon_of_mem_filterStrip_split {T o : List Char}
    (ho : o ∈ filterStrip (splitOnChar ';' T)) : (';' : Char) ∉ o := by
  unfold filterStrip at ho
  have ho2 := (List.mem_filter.mp ho).1
  obtain ⟨p, hp, hps⟩ := List.mem_map.mp ho2
  intro hsemi
  exact not_mem_splitOnChar ';' T p hp (mem_strip (hps ▸ hsemi))

/-! ### Inputs on which comment removal is the identity -/

/-- The two-character pattern `--` beginning a line comment. -/
def ddash : List Char := ['-', '-']

/-- The two-character pattern `/*` opening a block comment. -/
def slashStar : List Char := ['/', '*']

theorem containsSub_false_iff {l pat : List Char} :
    containsSub l pat = false ↔ ¬ pat <:+: l := by
  rw [← containsSub_iff]
  cases containsSub l pat <;> simp

theorem mapInit_eq_self (f : List Char → List Char) :
    ∀ ls : List (List Char), (∀ l ∈ ls, f l = l) → mapInit f ls = ls := by
  intro ls
  induction ls with
  | nil => intro _; rfl
  | cons x xs ih =>
    intro h
    cases xs with
    | nil => rfl
    | cons y rest =>
      show f x :: mapInit f (y :: rest) = x :: y :: rest
      rw [h x (List.mem_cons_self x _), ih (fun l hl => h l (List.mem_cons_of_mem x hl))]

theorem joinNL_splitNL (l : List Char) : joinNL (splitOnChar '\n' l) = l := by
  induction l with
  | nil => rfl
  | cons x xs ih =>
    simp only [splitOnChar]
    by_cases hx : x = '\n'
    · rw [if_pos hx]
      subst hx
      obtain ⟨q, qs, hq⟩ := splitOnChar_shape '\n' xs
      rw [hq]
      rw [hq] at ih
      show ([] : List Char) ++ '\n' :: joinNL (q :: qs) = '\n' :: xs
      rw [List.nil_append, ih]
    · rw [if_neg hx]
      obtain ⟨q, qs, hq⟩ := splitOnChar_shape '\n' xs
      rw [hq, consHead_cons]
      rw [hq] at ih
      cases qs with
      | nil =>
        show x :: q = x :: xs
        have : joinNL [q] = q := rfl
        rw [this] at ih
        rw [ih]
      | cons q2 qs2 =>
        show (x :: q) ++ '\n' :: joinNL (q2 :: qs2) = x :: xs
        have : joinNL (q :: q2 :: qs2) = q ++ '\n' :: joinNL (q2 :: qs2) := rfl
        rw [this] at ih
        rw [List.cons_append, ih]

theorem prefix_self_of_headD_splitOnChar (c : Char) (l : List Char) :
    (splitOnChar c l).headD [] <+: l := by
  induction l with
  | nil => simp [splitOnChar]
  | cons x xs ih =>
    simp only [splitOnChar]
    by_cases hx : x = c
    · rw [if_pos hx]
      simp
    · rw [if_neg hx]
      obtain ⟨q, qs, hq⟩ := splitOnChar_shape c xs
      rw [hq, consHead_cons]
      rw [hq] at ih
      simp only [List.headD_cons] at ih ⊢
      exact List.cons_prefix_cons.mpr ⟨rfl, ih⟩

theorem infix_of_mem_splitOnChar (c : Char) (l : List Char) :
    ∀ p ∈ splitOnChar c l, p <:+: l := by
  induction l with
  | nil =>
    intro p hp
    simp [splitOnChar] at hp
    simp [hp]
  | cons x xs ih =>
    intro p hp
    simp only [splitOnChar] at hp
    by_cases hx : x = c
    · rw [if_pos hx] at hp
      rcases List.mem_cons.mp hp with h | h
      · simp [h]
      · exact List.infix_cons (ih p h)
    · rw [if_neg hx] at hp
      obtain ⟨q, qs, hq⟩ := splitOnChar_shape c xs
      rw [hq, consHead_cons] at hp
      rcases List.mem_cons.mp hp with h | h
      · subst h
        have hq' : q <+: xs := by
          have h2 := prefix_self_of_headD_splitOnChar c xs
          rw [hq] at h2
          simpa using h2
        exact (List.cons_prefix_cons.mpr ⟨rfl, hq'⟩).isInfix
      · exact List.infix_cons (ih p (hq ▸ List.mem_cons_of_mem q h))

theorem trunc_eq_self : ∀ l, containsSub l ddash = false → truncLineComment l = l := by
  intro l
  induction l with
  | nil => intro _; rfl
  | cons c rest ih =>
    intro h
    rw [containsSub_false_iff] at h
    simp only [truncLineComment]
    by_cases hc : (c = '-' && rest.head? = some '-') = true
    · exfalso
      apply h
      simp only [Bool.and_eq_true, decide_eq_true_eq] at hc
      obtain ⟨hc1, hc2⟩ := hc
      cases rest with
      | nil => simp at hc2
      | cons d r2 =>
        simp only [List.head?_cons, Option.some.injEq] at hc2
        subst hc1
        subst hc2
        exact (List.IsPrefix.isInfix ⟨r2, rfl⟩)
    · rw [if_neg hc]
      have hrest : containsSub rest ddash = false := by
        rw [containsSub_false_iff]
        exact fun hin => h (List.infix_cons hin)
      rw [ih hrest]

theorem removeLineComments_eq_self {s : List Char}
    (h : containsSub s ddash = false) : removeLineComments s = s := by
  unfold removeLineComments
  have hlines : ∀ l ∈ splitOnChar '\n' s, truncLineComment l = l := by
    intro l hl
    apply trunc_eq_self
    rw [containsSub_false_iff] at h ⊢
    exact fun hin => h (hin.trans (infix_of_mem_splitOnChar '\n' s l hl))
  rw [mapInit_eq_self truncLineComment _ hlines, joinNL_splitNL]

theorem removeBlockComments_eq_self :
    ∀ l, containsSub l slashStar = false → removeBlockComments l = l := by
  intro l
  induction l with
  | nil => intro _; rfl
  | cons c rest ih =>
    intro h
    rw [containsSub_false_iff] at h
    rw [removeBlockComments_cons]
    by_cases hc : (c = '/' && rest.head? = some '*') = true
    · exfalso
      apply h
      simp only [Bool.and_eq_true, decide_eq_true_eq] at hc
      obtain ⟨hc1, hc2⟩ := hc
      cases rest with
      | nil => simp at hc2
      | cons d r2 =>
        simp only [List.head?_cons, Option.some.injEq] at hc2
        subst hc1
        subst hc2
        exact (List.IsPrefix.isInfix ⟨r2, rfl⟩)
    · rw [if_neg hc]
      have hrest : containsSub rest slashStar = false := by
        rw [containsSub_false_iff]
        exact fun hin => h (List.infix_cons hin)
      rw [ih hrest]

theorem removeComments_eq_self {s : List Char}
    (h1 : containsSub s ddash = false) (h2 : containsSub s slashStar = false) :
    removeComments s = s := by
  unfold removeComments
  rw [removeLineComments_eq_self h1, removeBlockComments_eq_self _ h2]

/-! ### Inputs without semicolons -/

/-- When no line contains a semicolon the loop never splits: the collected
statements are untouched and the buffer accumulates the whole text (the
procedure flag may evolve, the quote flag never does). -/
theorem foldl_processLine_no_semi (lines : List (List Char)) :
    ∀ (stmts : List (List Char)) (cur : List Char) (b1 b2 : Bool),
      (∀ l ∈ lines, l.contains ';' = false) →
      ∃ p, lines.foldl processLine ⟨stmts, cur, b1, b2⟩ =
        ⟨stmts, cur ++ textNL lines, b1, p⟩ := by
  induction lines with
  | nil =>
    intro stmts cur b1 b2 _
    exact ⟨b2, by simp [textNL]⟩
  | cons line rest ih =>
    intro stmts cur b1 b2 h
    have hl : line.contains ';' = false := h line (List.mem_cons_self line rest)
    rw [List.foldl_cons]
    have hstep : processLine ⟨stmts, cur, b1, b2⟩ line =
        ⟨stmts, cur ++ line ++ ['\n'], b1,
          if containsSub (upperL (strip line)) markerL then true
          else if b2 && dollarEnd.isSuffixOf (strip line) then false else b2⟩ := by
      have hnm : (';' : Char) ∉ line := by
        intro hm
        have hc : line.contains ';' = true := by
          show List.elem ';' line = true
          exact List.elem_iff.mpr hm
        rw [hc] at hl
        exact Bool.true_eq_false.mp hl
      unfold processLine
      simp [hnm]
    rw [hstep]
    obtain ⟨p, hp⟩ :=
      ih stmts (cur ++ line ++ ['\n']) b1 _ (fun l hl2 => h l (List.mem_cons_of_mem _ hl2))
    refine ⟨p, ?_⟩
    rw [hp, textNL_cons]
    simp

/-- On comment-free input without semicolons, the splitter returns the whole
stripped input as its only statement (empty when all-whitespace). -/
theorem parse_no_semi {s : List Char}
    (h1 : containsSub s ddash = false) (h2 : containsSub s slashStar = false)
    (hs : (';' : Char) ∉ s) :
    parse_sql_statements s = if (strip s).isEmpty then [] else [strip s] := by
  simp only [parse_sql_statements]
  rw [removeComments_eq_self h1 h2]
  have hfree : ∀ l ∈ splitOnChar '\n' s, l.contains ';' = false := by
    intro l hl
    have hinf := infix_of_mem_splitOnChar '\n' s l hl
    cases hcl : l.contains ';' with
    | false => rfl
    | true =>
      exact absurd (hinf.subset (List.elem_iff.mp hcl)) hs
  obtain ⟨p, hp⟩ := foldl_processLine_no_semi (splitOnChar '\n' s) [] [] false false hfree
  rw [hp]
  simp only [List.nil_append, textNL_splitNL]
  rw [strip_append_ws isPySpace_newline]

/-! ### The collected statements are always stripped and non-empty -/

/-- The well-formedness carried by every emitted statement. -/
def GoodStmt (o : List Char) : Prop :=
  strip o = o ∧ o ≠ []

theorem goodStmt_of_mem_filterStrip {ps : List (List Char)} {o : List Char}
    (ho : o ∈ filterStrip ps) : GoodStmt o := by
  unfold filterStrip at ho
  have h1 := (List.mem_filter.mp ho).1
  have h2 := (List.mem_filter.mp ho).2
  obtain ⟨p, _, hps⟩ := List.mem_map.mp h1
  constructor
  · rw [← hps, strip_idem]
  · simp only [Bool.not_eq_true'] at h2
    exact List.isEmpty_eq_false.mp h2

theorem processLine_statements_good {st : SplitState} {line o : List Char}
    (ho : o ∈ (processLine st line).statements) :
    o ∈ st.statements ∨ GoodStmt o := by
  unfold processLine at ho
  by_cases hcond :
      (line.contains ';' && !(if containsSub (upperL (strip line)) markerL then true
          else if st.in_procedure && dollarEnd.isSuffixOf (strip line) then false
          else st.in_procedure) && !st.in_string) = true
  · rw [if_pos hcond] at ho
    by_cases hlen :
        (splitOnChar ';' (st.current ++ line ++ ['\n'])).length > 1
    · rw [if_pos hlen] at ho
      simp only at ho
      rcases List.mem_append.mp ho with h | h
      · exact Or.inl h
      · exact Or.inr (goodStmt_of_mem_filterStrip h)
    · rw [if_neg hlen] at ho
      exact Or.inl ho
  · rw [if_neg hcond] at ho
    exact Or.inl ho

theorem foldl_processLine_statements_good (lines : List (List Char)) :
    ∀ (st : SplitState) (o : List Char),
      o ∈ (lines.foldl processLine st).statements →
      o ∈ st.statements ∨ GoodStmt o := by
  induction lines with
  | nil => intro st o ho; exact Or.inl ho
  | cons line rest ih =>
    intro st o ho
    rw [List.foldl_cons] at ho
    rcases ih (processLine st line) o ho with h | h
    · exact processLine_statements_good h
    · exact Or.inr h

/-- Every statement returned by the splitter is already stripped and
non-empty (Python appends only `part.strip()` after a truthiness test). -/
theorem parse_statements_good {s o : List Char}
    (ho : o ∈ parse_sql_statements s) : strip o = o ∧ o ≠ [] := by
  simp only [parse_sql_statements] at ho
  rcases List.mem_append.mp ho with h | h
  · rcases foldl_processLine_statements_good _ _ _ h with h2 | h2
    · simp at h2
    · exact h2
  · by_cases he :
        (strip (List.foldl processLine ⟨[], [], false, false⟩
          (splitOnChar '\n' (removeComments s))).current).isEmpty
    · rw [if_pos he] at h
      simp at h
    · rw [if_neg he] at h
      rcases List.mem_singleton.mp h with rfl
      constructor
      · exact strip_idem _
      · exact List.isEmpty_eq_false.mp (Bool.not_eq_true _ ▸ (by simpa using he))

/-! ### Patterns across a semicolon-separated join -/

theorem prefix_of_append_cons {c : Char} {pat l m : List Char}
    (hc : c ∉ pat) (h : pat <+: l ++ c :: m) : pat <+: l := by
  induction pat generalizing l with
  | nil => simp
  | cons p pt ih =>
    cases l with
    | nil =>
      rw [List.nil_append] at h
      have := (List.cons_prefix_cons.mp h).1
      exact absurd (this ▸ List.mem_cons_self p pt) fun hmem => hc hmem
    | cons x lt =>
      rw [List.cons_append] at h
      obtain ⟨hpx, hrest⟩ := List.cons_prefix_cons.mp h
      have hct : c ∉ pt := fun hmem => hc (List.mem_cons_of_mem p hmem)
      exact List.cons_prefix_cons.mpr ⟨hpx, ih hct hrest⟩

theorem infix_of_append_cons {c : Char} {pat l m : List Char}
    (hc : c ∉ pat) (h : pat <:+: l ++ c :: m) : pat <:+: l ∨ pat <:+: m := by
  induction l with
  | nil =>
    rw [List.nil_append] at h
    rcases List.infix_cons_iff.mp h with h1 | h1
    · rcases List.prefix_cons_iff.mp h1 with h2 | ⟨t, h2, _⟩
      · exact Or.inl (h2 ▸ List.nil_infix)
      · exact absurd (h2 ▸ List.mem_cons_self c t) fun hmem => hc hmem
    · exact Or.inr h1
  | cons x lt ih =>
    rw [List.cons_append] at h
    rcases List.infix_cons_iff.mp h with h1 | h1
    · exact Or.inl (prefix_of_append_cons hc h1).isInfix
    · rcases ih h1 with h2 | h2
      · exact Or.inl (List.infix_cons h2)
      · exact Or.inr h2

theorem joinSemi_no_infix {pat : List Char} (hne : pat ≠ [])
    (hc : (';' : Char) ∉ pat) :
    ∀ os : List (List Char), (∀ o ∈ os, ¬ pat <:+: o) → ¬ pat <:+: joinSemi os := by
  intro os
  induction os with
  | nil =>
    intro _ h
    exact hne (List.infix_nil.mp h)
  | cons o os ih =>
    intro h hin
    rcases infix_of_append_cons hc hin with h1 | h1
    · exact h o (List.mem_cons_self o os) h1
    · exact ih (fun o2 ho2 => h o2 (List.mem_cons_of_mem o ho2)) h1

theorem upperL_joinSemi (os : List (List Char)) :
    upperL (joinSemi os) = joinSemi (os.map upperL) := by
  induction os with
  | nil => rfl
  | cons o os ih =>
    show upperL (o ++ ';' :: joinSemi os) = upperL o ++ ';' :: joinSemi (os.map upperL)
    rw [← ih]
    unfold upperL
    rw [List.map_append, List.map_cons]
    rfl

theorem splitOnChar_sep_cons {c : Char} {o : List Char} (X : List Char)
    (h : c ∉ o) : splitOnChar c (o ++ c :: X) = o :: splitOnChar c X := by
  induction o with
  | nil => simp [splitOnChar]
  | cons x ot ih =>
    have hx : x ≠ c := fun he => h (he ▸ List.mem_cons_self x ot)
    have hot : c ∉ ot := fun hm => h (List.mem_cons_of_mem x hm)
    rw [List.cons_append]
    simp only [splitOnChar, if_neg hx]
    rw [ih hot, consHead_cons]

theorem splitOnChar_joinSemi {os : List (List Char)}
    (h : ∀ o ∈ os, (';' : Char) ∉ o) :
    splitOnChar ';' (joinSemi os ++ ['\n']) = os ++ [['\n']] := by
  induction os with
  | nil => rfl
  | cons o os ih =>
    show splitOnChar ';' ((o ++ ';' :: joinSemi os) ++ ['\n']) = (o :: os) ++ [['\n']]
    rw [List.append_assoc, List.cons_append,
      splitOnChar_sep_cons _ (h o (List.mem_cons_self o os)),
      ih (fun o2 ho2 => h o2 (List.mem_cons_of_mem o ho2))]
    rfl

theorem filterStrip_of_good {os : List (List Char)}
    (h : ∀ o ∈ os, strip o = o ∧ o ≠ []) : filterStrip os = os := by
  induction os with
  | nil => rfl
  | cons o os ih =>
    obtain ⟨h1, h2⟩ := h o (List.mem_cons_self o os)
    unfold filterStrip
    rw [List.map_cons, List.filter_cons, h1]
    rw [if_pos (by simpa using h2)]
    have := ih (fun o2 ho2 => h o2 (List.mem_cons_of_mem o ho2))
    unfold filterStrip at this
    rw [this]

/-- Re-splitting the `;`-joined output reproduces the output, provided the
output statements contain no semicolon, no comment-opening pattern, and no
procedure marker. -/
theorem parse_joinSemi_eq {s : List Char}
    (hsemi : ∀ o ∈ parse_sql_statements s, (';' : Char) ∉ o)
    (hdd : ∀ o ∈ parse_sql_statements s, containsSub o ddash = false)
    (hsl : ∀ o ∈ parse_sql_statements s, containsSub o slashStar = false)
    (hmk : ∀ o ∈ parse_sql_statements s, containsSub (upperL o) markerL = false) :
    parse_sql_statements (joinSemi (parse_sql_statements s)) =
      parse_sql_statements s := by
  have hddS : containsSub (joinSemi (parse_sql_statements s)) ddash = false := by
    rw [containsSub_false_iff]
    apply joinSemi_no_infix (by decide) (by decide)
    intro o ho
    rw [← containsSub_false_iff]
    exact hdd o ho
  have hslS : containsSub (joinSemi (parse_sql_statements s)) slashStar = false := by
    rw [containsSub_false_iff]
    apply joinSemi_no_infix (by decide) (by decide)
    intro o ho
    rw [← containsSub_false_iff]
    exact hsl o ho
  have hrc : removeComments (joinSemi (parse_sql_statements s)) =
      joinSemi (parse_sql_statements s) := removeComments_eq_self hddS hslS
  have hmkS : ¬ markerL <:+: upperL (joinSemi (parse_sql_statements s)) := by
    rw [show upperL (joinSemi (parse_sql_statements s)) =
          joinSemi ((parse_sql_statements s).map upperL) from
        upperL_joinSemi _]
    apply joinSemi_no_infix (by decide) (by decide)
    intro o2 ho2
    obtain ⟨o, ho, rfl⟩ := List.mem_map.mp ho2
    rw [← containsSub_false_iff]
    exact hmk o ho
  have hlines : ∀ l ∈ splitOnChar '\n'
        (removeComments (joinSemi (parse_sql_statements s))),
      containsSub (upperL (strip l)) markerL = false := by
    intro l hl
    rw [containsSub_false_iff]
    intro hin
    apply hmkS
    have h1 : upperL (strip l) <:+: upperL l :=
      List.IsInfix.map Char.toUpper (strip_infix_self l)
    have h2 : upperL l <:+: upperL (joinSemi (parse_sql_statements s)) := by
      rw [hrc] at hl
      exact List.IsInfix.map Char.toUpper
        (infix_of_mem_splitOnChar '\n' (joinSemi (parse_sql_statements s)) l hl)
    exact (hin.trans h1).trans h2
  rw [parse_eq_filterStrip_of_no_marker hlines, hrc, splitOnChar_joinSemi hsemi,
    filterStrip_append,
    filterStrip_of_good (fun o ho => parse_statements_good ho),
    show filterStrip [['\n']] = [] by decide, List.append_nil]

/-! ### What line-comment removal does line by line -/

theorem trunc_prefix_self (l : List Char) : truncLineComment l <+: l := by
  induction l with
  | nil => simp [truncLineComment]
  | cons c rest ih =>
    simp only [truncLineComment]
    by_cases hc : (c = '-' && rest.head? = some '-') = true
    · rw [if_pos hc]; simp
    · rw [if_neg hc]
      exact List.cons_prefix_cons.mpr ⟨rfl, ih⟩

theorem trunc_head_cases (m : List Char) :
    truncLineComment m = [] ∨ (truncLineComment m).head? = m.head? := by
  cases m with
  | nil => exact Or.inl rfl
  | cons c rest =>
    simp only [truncLineComment]
    by_cases hc : (c = '-' && rest.head? = some '-') = true
    · rw [if_pos hc]; exact Or.inl rfl
    · rw [if_neg hc]; exact Or.inr rfl

/-- After truncation a line contains no `--` any more. -/
theorem trunc_no_ddash (l : List Char) :
    containsSub (truncLineComment l) ddash = false := by
  rw [containsSub_false_iff]
  induction l with
  | nil => simp [truncLineComment, ddash]
  | cons c rest ih =>
    simp only [truncLineComment]
    by_cases hc : (c = '-' && rest.head? = some '-') = true
    · rw [if_pos hc]; simp [ddash]
    · rw [if_neg hc]
      intro hin
      rcases List.infix_cons_iff.mp hin with h1 | h1
      · obtain ⟨hd, htl⟩ := List.cons_prefix_cons.mp h1
        have hh : (truncLineComment rest).head? = some '-' := by
          cases htr : truncLineComment rest with
          | nil =>
            rw [htr] at htl
            simp at htl
          | cons y t =>
            rw [htr] at htl
            have hy : '-' = y := by simpa using htl
            rw [List.head?_cons, ← hy]
        rcases trunc_head_cases rest with h2 | h2
        · rw [h2] at hh; simp at hh
        · rw [h2] at hh
          apply hc
          simp [← hd, hh]
      · exact ih h1

theorem mapInit_ne_nil {f : List Char → List Char} {ls : List (List Char)}
    (h : ls ≠ []) : mapInit f ls ≠ [] := by
  cases ls with
  | nil => exact absurd rfl h
  | cons x xs => cases xs <;> simp [mapInit]

theorem mem_mapInit {f : List Char → List Char} :
    ∀ {ls : List (List Char)} {p : List Char}, p ∈ mapInit f ls →
      (∃ l ∈ ls, p = f l) ∨ p ∈ ls := by
  intro ls
  induction ls with
  | nil => intro p hp; simp [mapInit] at hp
  | cons x xs ih =>
    intro p hp
    cases xs with
    | nil =>
      simp only [mapInit] at hp
      exact Or.inr hp
    | cons y rest =>
      rcases List.mem_cons.mp hp with h | h
      · exact Or.inl ⟨x, List.mem_cons_self x _, h⟩
      · rcases ih h with ⟨l, hl, hpl⟩ | h2
        · exact Or.inl ⟨l, List.mem_cons_of_mem x hl, hpl⟩
        · exact Or.inr (List.mem_cons_of_mem x h2)

theorem mapInit_dropLast (f : List Char → List Char) :
    ∀ ls : List (List Char), (mapInit f ls).dropLast = ls.dropLast.map f := by
  intro ls
  induction ls with
  | nil => rfl
  | cons x xs ih =>
    cases xs with
    | nil => rfl
    | cons y rest =>
      show (f x :: mapInit f (y :: rest)).dropLast = ((x :: y :: rest).dropLast).map f
      cases rest with
      | nil =>
        show (f x :: [y]).dropLast = [f x]
        rfl
      | cons z rest2 =>
        rw [show mapInit f (y :: z :: rest2) = f y :: mapInit f (z :: rest2) from rfl,
          List.dropLast_cons₂]
        rw [show mapInit f (y :: z :: rest2) = f y :: mapInit f (z :: rest2) from rfl] at ih
        rw [ih]
        simp

theorem getLastD_irrel {l : List (List Char)} (h : l ≠ []) (d d2 : List Char) :
    l.getLastD d = l.getLastD d2 := by
  rw [List.getLastD_eq_getLast?, List.getLastD_eq_getLast?,
    List.getLast?_eq_getLast _ h]
  simp

theorem mapInit_getLastD (f : List Char → List Char) :
    ∀ ls : List (List Char), (mapInit f ls).getLastD [] = ls.getLastD [] := by
  intro ls
  induction ls with
  | nil => rfl
  | cons x xs ih =>
    cases xs with
    | nil => rfl
    | cons y rest =>
      show (f x :: mapInit f (y :: rest)).getLastD [] = (x :: y :: rest).getLastD []
      rw [List.getLastD_cons, List.getLastD_cons,
        getLastD_irrel (mapInit_ne_nil (by simp)) (f x) [],
        getLastD_irrel (by simp) x []]
      exact ih

theorem splitNL_joinNL :
    ∀ ls : List (List Char), ls ≠ [] → (∀ l ∈ ls, ('\n' : Char) ∉ l) →
      splitOnChar '\n' (joinNL ls) = ls := by
  intro ls
  induction ls with
  | nil => intro h _; exact absurd rfl h
  | cons x xs ih =>
    intro _ h
    cases xs with
    | nil =>
      show splitOnChar '\n' x = [x]
      exact splitOnChar_of_not_mem (h x (List.mem_cons_self x _))
    | cons y rest =>
      show splitOnChar '\n' (x ++ '\n' :: joinNL (y :: rest)) = x :: y :: rest
      rw [splitOnChar_sep_cons _ (h x (List.mem_cons_self x _)),
        ih (by simp) (fun l hl => h l (List.mem_cons_of_mem x hl))]

/-- The '\n'-lines of the line-comment-stripped text are exactly the
truncations of the original lines (with the final, unterminated segment
left untouched). -/
theorem splitNL_removeLineComments (s : List Char) :
    splitOnChar '\n' (removeLineComments s) =
      mapInit truncLineComment (splitOnChar '\n' s) := by
  unfold removeLineComments
  apply splitNL_joinNL
  · exact mapInit_ne_nil (splitOnChar_ne_nil _ _)
  · intro l hl
    rcases mem_mapInit hl with ⟨l0, hl0, rfl⟩ | h2
    · intro hmem
      exact not_mem_splitOnChar '\n' s l0 hl0 ((trunc_prefix_self l0).subset hmem)
    · exact not_mem_splitOnChar '\n' s l h2

/-! ### Unterminated block comments are not removed -/

/-- The two-character pattern `*/` closing a block comment. -/
def starSlash : List Char := ['*', '/']

theorem findStarSlash_eq_none :
    ∀ m : List Char, containsSub m starSlash = false → findStarSlash m = none := by
  intro m
  induction m with
  | nil => intro _; rfl
  | cons c rest ih =>
    intro h
    rw [containsSub_false_iff] at h
    simp only [findStarSlash]
    by_cases hc : (c = '*' && rest.head? = some '/') = true
    · exfalso
      apply h
      simp only [Bool.and_eq_true, decide_eq_true_eq] at hc
      obtain ⟨hc1, hc2⟩ := hc
      cases rest with
      | nil => simp at hc2
      | cons d r2 =>
        simp only [List.head?_cons, Option.some.injEq] at hc2
        subst hc1
        subst hc2
        exact List.IsPrefix.isInfix (show starSlash <+: '*' :: '/' :: r2 from ⟨r2, rfl⟩)
    · rw [if_neg hc]
      apply ih
      rw [containsSub_false_iff]
      exact fun hin => h (List.infix_cons hin)

/-- When the input contains no `*/` at all, block-comment removal changes
nothing: an unterminated `/*` comment is left in place. -/
theorem removeBlockComments_eq_self_of_no_terminator :
    ∀ l : List Char, containsSub l starSlash = false → removeBlockComments l = l := by
  intro l
  induction l with
  | nil => intro _; rfl
  | cons c rest ih =>
    intro h
    have hrest : containsSub rest starSlash = false := by
      rw [containsSub_false_iff] at h ⊢
      exact fun hin => h (List.infix_cons hin)
    rw [removeBlockComments_cons]
    by_cases hc : (c = '/' && rest.head? = some '*') = true
    · rw [if_pos hc]
      have htail : containsSub rest.tail starSlash = false := by
        rw [containsSub_false_iff] at hrest ⊢
        intro hin
        apply hrest
        exact hin.trans (List.IsSuffix.isInfix (List.tail_suffix rest))
      rw [findStarSlash_eq_none _ htail]
    · rw [if_neg hc, ih hrest]

/-! ### The claims -/

/-- A single-quote character, built by code point to keep literals plain. -/
def squote : List Char := [Char.ofNat 39]

/-- C1: procedure-mode containment.  The spec requires that when the `$$;`
line ends procedure mode the whole accumulated buffer becomes ONE statement,
so the claim's example must yield exactly two statements.  The code instead
splits the accumulated buffer on every semicolon it contains once procedure
mode is exited, defeating the purpose of its own `in_procedure` deferral
("be careful with semicolons inside strings/procedures"): the example yields
five fragments, including a bare `$$`.  This theorem evaluates the splitter
at the claim's input. -/
theorem C1_procedure_split_eval :
    parse_sql_statements
        ("CREATE OR REPLACE PROCEDURE foo() ... BEGIN ... stmt1; stmt2; ... END;\n$$;\nSELECT 1;").toList =
      [("CREATE OR REPLACE PROCEDURE foo() ... BEGIN ... stmt1").toList,
       ("stmt2").toList, ("... END").toList, ("$$").toList, ("SELECT 1").toList] ∧
    (parse_sql_statements
        ("CREATE OR REPLACE PROCEDURE foo() ... BEGIN ... stmt1; stmt2; ... END;\n$$;\nSELECT 1;").toList).length ≠ 2 := by
  decide

/-- C2: reference equivalence.  For every SQL text none of whose
(comment-stripped) lines upper-cases to contain the procedure marker,
`parse_sql_statements` equals the naive reference split used by
`deploy_schemas.py`: remove comments, split the whole text on `;`, strip
each piece and keep the non-empty ones.  (The claim's extra proviso about
string-literal semicolons is not needed: neither side treats quotes
specially, so the equality holds with or without it.) -/
theorem C2_reference_equivalence (s : List Char)
    (hm : ∀ l ∈ splitOnChar '\n' (removeComments s),
            containsSub (upperL (strip l)) markerL = false) :
    parse_sql_statements s = refSplit s :=
  parse_eq_refSplit_of_no_marker hm

theorem C2_reference_equivalence_witness :
    parse_sql_statements ("A;B\nC;").toList = refSplit ("A;B\nC;").toList :=
  C2_reference_equivalence (("A;B\nC;").toList) (by decide)

/-- C3 counterexample: for input `A;/*x` the `/*` has no matching `*/`, yet
the character `x` after it does appear in an output statement — the regex
`/\*.*?\*/` simply fails to match, so nothing is removed, contradicting the
claim that an unterminated block comment is consumed to end of input. -/
theorem C3_counterexample :
    parse_sql_statements ("A;/*x").toList = [("A").toList, ("/*x").toList] ∧
    ∃ stmt ∈ parse_sql_statements ("A;/*x").toList, 'x' ∈ stmt := by
  decide

/-- C3 amended: an unterminated block comment is NOT removed: block-comment
removal only deletes `/*..*/` spans with a matching terminator, so on any
input containing no `*/` at all the preprocessing leaves the text unchanged
and the characters after a `/*` flow into the output statements. -/
theorem C3_unterminated_not_removed (l : List Char)
    (h : containsSub l starSlash = false) : removeBlockComments l = l :=
  removeBlockComments_eq_self_of_no_terminator l h

theorem C3_unterminated_not_removed_witness :
    removeBlockComments ("A;/*x").toList = ("A;/*x").toList :=
  C3_unterminated_not_removed (("A;/*x").toList) (by decide)

/-- C4 counterexample: re-splitting the `;`-joined output is NOT idempotent
in general.  For the procedure input `CREATE OR REPLACE PROCEDURE P\n$$;\nA;`
the splitter emits two statements, but joining them with `;` puts the `$$`
token and `A;` on the marker line, so the re-split never leaves procedure
mode and returns a single statement — a different number of statements, so
the sequences differ even modulo whitespace. -/
theorem C4_counterexample :
    (parse_sql_statements (joinSemi (parse_sql_statements
        ("CREATE OR REPLACE PROCEDURE P\n$$;\nA;").toList))).length = 1 ∧
    (parse_sql_statements ("CREATE OR REPLACE PROCEDURE P\n$$;\nA;").toList).length = 2 := by
  decide

/-- C4 amended: idempotence holds exactly (not merely modulo whitespace) for
every input whose output statements contain no `;`, no `--`, no `/*` and no
occurrence of the procedure marker in their upper-casing: re-splitting the
concatenation of the output, each statement followed by `;`, yields the same
sequence of statements. -/
theorem C4_idempotent_on_clean_output (s : List Char)
    (hsemi : ∀ o ∈ parse_sql_statements s, (';' : Char) ∉ o)
    (hdd : ∀ o ∈ parse_sql_statements s, containsSub o ddash = false)
    (hsl : ∀ o ∈ parse_sql_statements s, containsSub o slashStar = false)
    (hmk : ∀ o ∈ parse_sql_statements s, containsSub (upperL o) markerL = false) :
    parse_sql_statements (joinSemi (parse_sql_statements s)) =
      parse_sql_statements s :=
  parse_joinSemi_eq hsemi hdd hsl hmk

theorem C4_idempotent_on_clean_output_witness :
    parse_sql_statements (joinSemi (parse_sql_statements ("A;B\nC;").toList)) =
      parse_sql_statements ("A;B\nC;").toList :=
  C4_idempotent_on_clean_output (("A;B\nC;").toList)
    (by decide) (by decide) (by decide) (by decide)

/-- C5: totality.  In this embedding `parse_sql_statements` is a total
function: it returns a (possibly empty) sequence for every input — the
Python code has no raise of its own and its only partial-looking operation
(`parts[-1]`) is guarded by `len(parts) > 1` — and the empty input yields
the empty sequence. -/
theorem C5_total_and_empty :
    parse_sql_statements [] = [] ∧
    ∀ s : List Char, ∃ stmts : List (List Char), parse_sql_statements s = stmts :=
  ⟨by decide, fun s => ⟨parse_sql_statements s, rfl⟩⟩

/-- C6 counterexample: the claim's expected output
`["CREATE TABLE T ( ID INT)"]` is wrong: block-comment removal splices the
surrounding text together without inserting a space, so there is no blank
between `(` and `ID`. -/
theorem C6_counterexample :
    parse_sql_statements ("CREATE TABLE T (/* col comment */ID INT);").toList ≠
      [("CREATE TABLE T ( ID INT)").toList] := by
  decide

/-- C6 amended: removing the block comment yields exactly one statement,
with the comment deleted and its neighbours joined directly:
`["CREATE TABLE T (ID INT)"]`. -/
theorem C6_block_comment_spliced :
    parse_sql_statements ("CREATE TABLE T (/* col comment */ID INT);").toList =
      [("CREATE TABLE T (ID INT)").toList] := by
  decide

/-- C7: string-literal semicolons are not protected.  On
`SELECT 'a;b';` the splitter cuts at the semicolon inside the quotes and
returns the two statements `SELECT 'a` and `b'`; indeed the `in_string`
flag is never modified by any loop iteration. -/
theorem C7_string_semicolon_not_protected :
    parse_sql_statements
        (("SELECT ").toList ++ squote ++ ("a;b").toList ++ squote ++ (";").toList) =
      [("SELECT ").toList ++ squote ++ ("a").toList, ("b").toList ++ squote] ∧
    ∀ (st : SplitState) (line : List Char),
      (processLine st line).in_string = st.in_string := by
  constructor
  · decide
  · intro st line
    unfold processLine
    dsimp only
    repeat' split
    all_goals rfl

/-- C8 counterexample: a `--` comment on a final line with no trailing
newline is NOT removed (the regex `--.*?\n` needs the newline), so for the
input `x -- c` the comment text survives into the output, contradicting
removal "including a comment on the final line". -/
theorem C8_counterexample :
    parse_sql_statements ("x -- c").toList = [("x -- c").toList] ∧
    ("x -- c").toList ≠ ("x").toList := by
  decide

/-- C8 amended: preprocessing removes each line comment from its `--` to the
end of its line for every newline-terminated line — no `--` survives outside
the final segment — while the final segment (after the last newline) is kept
unchanged; and an input consisting only of a terminated comment, such as
`"-- just a comment\n"`, yields the empty sequence. -/
theorem C8_line_comment_removal :
    (∀ s : List Char,
      (∀ l ∈ (splitOnChar '\n' (removeLineComments s)).dropLast,
          containsSub l ddash = false) ∧
      (splitOnChar '\n' (removeLineComments s)).getLastD [] =
        (splitOnChar '\n' s).getLastD []) ∧
    parse_sql_statements ("-- just a comment\n").toList = [] := by
  constructor
  · intro s
    constructor
    · intro l hl
      rw [splitNL_removeLineComments, mapInit_dropLast] at hl
      obtain ⟨l0, _, rfl⟩ := List.mem_map.mp hl
      exact trunc_no_ddash l0
    · rw [splitNL_removeLineComments, mapInit_getLastD]
  · decide

theorem C8_line_comment_removal_witness :
    ("a").toList ∈ (splitOnChar '\n' (removeLineComments ("a--b\nc").toList)).dropLast ∧
    containsSub (("a").toList) ddash = false :=
  ⟨by decide, (C8_line_comment_removal.1 (("a--b\nc").toList)).1 (("a").toList) (by decide)⟩

/-- C9 counterexample: the claim forgets that preprocessing may rewrite the
text: `a /* b */` has no semicolon, no trailing newline and a non-empty
trim, yet the output is `["a"]`, not the trimmed input (the block comment is
removed first). -/
theorem C9_counterexample :
    parse_sql_statements ("a /* b */").toList ≠ [strip (("a /* b */").toList)] := by
  decide

/-- C9 amended: for every input with no `;`, no trailing newline, non-empty
trim, and additionally no `--` and no `/*` (so that comment removal leaves
it unchanged), the splitter yields exactly one statement: the trimmed
input. -/
theorem C9_single_statement (s : List Char)
    (h1 : (';' : Char) ∉ s)
    (h2 : s.getLast? ≠ some '\n')
    (h3 : strip s ≠ [])
    (h4 : containsSub s ddash = false)
    (h5 : containsSub s slashStar = false) :
    parse_sql_statements s = [strip s] := by
  rw [parse_no_semi h4 h5 h1]
  rw [if_neg (by simpa using h3)]

theorem C9_single_statement_witness :
    parse_sql_statements ("  SELECT 1 ").toList = [strip (("  SELECT 1 ").toList)] :=
  C9_single_statement (("  SELECT 1 ").toList)
    (by decide) (by decide) (by decide) (by decide) (by decide)

/-- C10: implicit invariant.  When no (comment-stripped) line upper-cases to
contain the procedure marker, no returned statement contains a `;`: every
semicolon is consumed as a delimiter and the final buffer stays
semicolon-free. -/
theorem C10_no_semicolon_in_statements (s : List Char)
    (hm : ∀ l ∈ splitOnChar '\n' (removeComments s),
            containsSub (upperL (strip l)) markerL = false) :
    ∀ stmt ∈ parse_sql_statements s, (';' : Char) ∉ stmt := by
  rw [parse_eq_filterStrip_of_no_marker hm]
  intro stmt hst
  exact no_semicolon_of_mem_filterStrip_split hst

theorem C10_no_semicolon_in_statements_witness :
    ("two\nthree").toList ∈ parse_sql_statements ("one;two\nthree;four").toList ∧
    (';' : Char) ∉ ("two\nthree").toList :=
  ⟨by decide,
    C10_no_semicolon_in_statements (("one;two\nthree;four").toList) (by decide)
      (("two\nthree").toList) (by decide)⟩

end RetailWorks
